import Mathlib

/-!
Verification of the persistent range-sum segment tree
(`src/data_structures/persistent_segment_tree.py`).

The Python code allocates `Node` objects on the garbage-collected heap and
shares subtrees between versions by object reference.  We embed this with an
explicit append-only heap: a node reference is an index into a list of
`Node` records, and allocation appends.  The source constructs each node and
assigns its fields before the node becomes reachable from any published
root, so we allocate each completed node in one step.

The recursive functions `_build`, `_update` and `_query` are embedded with
an explicit fuel argument (the source recursion has no structural
termination argument for all inputs: `_build` does not terminate on an
empty array).  Exhausted fuel yields `none`; lemmas below show the fuel
passed by the API wrappers is sufficient whenever the source recursion
terminates.
-/

namespace PSeg

/-- Embeds the Python class `Node`: a value and optional child references
(`None` in Python is `none`).  A reference is an index into the heap. -/
structure Node where
  value : Int
  left : Option Nat := none
  right : Option Nat := none
deriving DecidableEq

/-- The object heap: node references are list indices. -/
abbrev Heap := List Node

/-- Allocation of a fresh node: append to the heap, return the new heap and
the reference to the new node. -/
def alloc (h : Heap) (nd : Node) : Heap × Nat := (h ++ [nd], h.length)

/-- Python list indexing `l[i]`: indices in `[0, len)` read directly,
indices in `[-len, -1]` read from the end, anything else raises
`IndexError` (modelled as `none`). -/
def pyGet {α : Type} (l : List α) (i : Int) : Option α :=
  if 0 ≤ i then l[i.toNat]?
  else if (l.length : Int) + i < 0 then none
  else l[((l.length : Int) + i).toNat]?

/-- Embeds `PersistentSegmentTree._build(arr, start, end)`.  The bounds are
integers, exactly as in the source (`__init__` passes `end = n - 1`, which
is `-1` for an empty array); the midpoint uses Python floor division
(`Int.fdiv`).  `fuel` bounds the recursion depth; `none` means the
recursion did not finish within the fuel (or `arr[start]` raised). -/
def buildF (arr : List Int) : Nat → Heap → Int → Int → Option (Heap × Nat)
  | 0, _, _, _ => none
  | fuel + 1, h, s, e =>
    if s = e then
      (pyGet arr s).map fun x => alloc h { value := x }
    else
      let mid := Int.fdiv (s + e) 2
      do
        let (h1, l) ← buildF arr fuel h s mid
        let (h2, r) ← buildF arr fuel h1 (mid + 1) e
        let ndl ← h2[l]?
        let ndr ← h2[r]?
        some (alloc h2 { value := ndl.value + ndr.value, left := some l, right := some r })

/-- Embeds `PersistentSegmentTree._update(node, start, end, index, value)`:
path copy toward the target leaf; the child off the path is shared (the
same heap reference as in the base node). -/
def updateF : Nat → Heap → Nat → Int → Int → Int → Int → Option (Heap × Nat)
  | 0, _, _, _, _, _, _ => none
  | fuel + 1, h, i, s, e, index, value =>
    if s = e then
      some (alloc h { value := value })
    else
      let mid := Int.fdiv (s + e) 2
      do
        let nd ← h[i]?
        if index ≤ mid then
          let li ← nd.left
          let (h1, l') ← updateF fuel h li s mid index value
          let ri ← nd.right
          let ndl ← h1[l']?
          let ndr ← h1[ri]?
          some (alloc h1 { value := ndl.value + ndr.value, left := some l', right := some ri })
        else
          let ri ← nd.right
          let (h1, r') ← updateF fuel h ri (mid + 1) e index value
          let li ← nd.left
          let ndl ← h1[li]?
          let ndr ← h1[r']?
          some (alloc h1 { value := ndl.value + ndr.value, left := some li, right := some r' })

/-- Embeds `PersistentSegmentTree._query(node, start, end, left, right)`:
three-way overlap decomposition, returning 0 on no overlap and the node
value on total overlap. -/
def queryF : Nat → Heap → Nat → Int → Int → Int → Int → Option Int
  | 0, _, _, _, _, _, _ => none
  | fuel + 1, h, i, s, e, left, right =>
    if left > e ∨ right < s then some 0
    else if left ≤ s ∧ right ≥ e then (h[i]?).map Node.value
    else
      let mid := Int.fdiv (s + e) 2
      do
        let nd ← h[i]?
        let li ← nd.left
        let a ← queryF fuel h li s mid left right
        let ri ← nd.right
        let b ← queryF fuel h ri (mid + 1) e left right
        some (a + b)

/-- Embeds the state of a `PersistentSegmentTree` object: the element
count `n`, the heap of allocated nodes, and the version table `roots`
(references to the root of each version). -/
structure PST where
  n : Nat
  heap : Heap
  roots : List Nat
deriving DecidableEq

/-- Embeds `PersistentSegmentTree.__init__(arr)`: build over
`[0, n - 1]` and append the root as version 0.  The fuel
`arr.length + 1` exceeds the recursion depth whenever the source
recursion terminates (for an empty array the source recursion diverges,
and `buildF` returns `none` for every fuel; see `C6_build_empty_diverges`). -/
def init (arr : List Int) : Option PST :=
  (buildF arr (arr.length + 1) [] 0 ((arr.length : Int) - 1)).map fun p =>
    { n := arr.length, heap := p.1, roots := [p.2] }

/-- Embeds `PersistentSegmentTree.update(version, index, value)`:
read `roots[version]`, path-copy, append the new root, and return
`len(roots) - 1` (the length after the append). -/
def update (t : PST) (version index value : Int) : Option (PST × Nat) := do
  let root ← pyGet t.roots version
  let (h', r') ← updateF (t.n + 1) t.heap root 0 ((t.n : Int) - 1) index value
  some ({ t with heap := h', roots := t.roots ++ [r'] }, t.roots.length)

/-- Embeds `PersistentSegmentTree.query(version, left, right)`. -/
def query (t : PST) (version left right : Int) : Option Int := do
  let root ← pyGet t.roots version
  queryF (t.n + 1) t.heap root 0 ((t.n : Int) - 1) left right

/-- One API call on an existing tree: `update(version, index, value)`. -/
inductive Op where
  | upd (version index value : Int)
deriving DecidableEq

/-- Run a list of update calls, collecting the returned version ids. -/
def runOps (t : PST) : List Op → Option (PST × List Nat)
  | [] => some (t, [])
  | Op.upd v i x :: rest => do
    let (t', id) ← update t v i x
    let (tf, ids) ← runOps t' rest
    some (tf, id :: ids)

/-- Build from `arr`, then run a list of update calls. -/
def run (arr : List Int) (ops : List Op) : Option (PST × List Nat) := do
  let t ← init arr
  runOps t ops

/-- `opsValid n count ops` holds when every update in `ops` names an
already-existing version (version ids grow by one per update, starting
from `count` existing versions) and an index inside `[0, n)`. -/
def opsValid (n : Nat) : Nat → List Op → Bool
  | _, [] => true
  | count, Op.upd v i _ :: rest =>
    decide (0 ≤ v ∧ v < (count : Int) ∧ 0 ≤ i ∧ i < (n : Int)) && opsValid n (count + 1) rest

/-- Reference oracle, following the spec: each update appends a new
logical array, namely the base version's array with the addressed element
replaced. -/
def oracleStep (as : List (List Int)) : Op → List (List Int)
  | Op.upd v i x => as ++ [(as.getD v.toNat []).set i.toNat x]

/-- Reference oracle, following the spec: the logical array of version `v`
is the build input with each update on its version chain applied. -/
def oracleArrays (arr : List Int) (ops : List Op) : List (List Int) :=
  ops.foldl oracleStep [arr]

/-- Number of nodes on the root-to-leaf path taken by `_update` for
`index` in the range `[s, e]` (every call of `_update` allocates exactly
one node, so this is the number of nodes one update allocates). -/
def pathLen (s e : Nat) (idx : Int) : Nat :=
  if e ≤ s then 1
  else if idx ≤ (((s + e) / 2 : Nat) : Int) then 1 + pathLen s ((s + e) / 2) idx
  else 1 + pathLen ((s + e) / 2 + 1) e idx
termination_by e - s
decreasing_by
  · omega
  · omega

/-- The leaf index actually written by `_update` when asked for `idx` in
the range `[s, e]`: the source clamps out-of-range indices to the nearest
end of the range. -/
def clampR (s e : Nat) (idx : Int) : Nat :=
  if idx < (s : Int) then s else if (e : Int) < idx then e else idx.toNat

/-- Heap extension: every node already allocated keeps its index and its
fields.  `update` only ever extends the heap, which is the persistence
invariant of the structure. -/
def HExt (h h' : Heap) : Prop :=
  ∀ (j : Nat) (nd : Node), h[j]? = some nd → h'[j]? = some nd

/-- `Denotes h f i s e v` states that the node at reference `i` of heap
`h` is a well-formed segment tree over the index range `[s, e]` of the
logical array `f`, carrying value `v`: leaves hold `f s` and have no
children, internal nodes split at the fixed midpoint and hold the sum of
their children. -/
inductive Denotes (h : Heap) (f : Nat → Int) : Nat → Nat → Nat → Int → Prop
  | leaf (i s : Nat) (nd : Node) (hget : h[i]? = some nd) (hl : nd.left = none)
      (hr : nd.right = none) (hv : nd.value = f s) : Denotes h f i s s (f s)
  | node (i s e l r : Nat) (vl vr : Int) (nd : Node) (hse : s < e)
      (hget : h[i]? = some nd) (hl : nd.left = some l) (hr : nd.right = some r)
      (hv : nd.value = vl + vr)
      (hdl : Denotes h f l s ((s + e) / 2) vl)
      (hdr : Denotes h f r ((s + e) / 2 + 1) e vr) :
      Denotes h f i s e (vl + vr)

/-- `SharedOff h h' idx i i' s e`: along the update path for `idx` from
the old root `i` (heap `h`) and the new root `i'` (heap `h'`), the child
off the path of each new node is the identical reference as the
corresponding child of the old node. -/
inductive SharedOff (h h' : Heap) (idx : Int) : Nat → Nat → Nat → Nat → Prop
  | leaf (i i' s : Nat) : SharedOff h h' idx i i' s s
  | goL (i i' s e l l' : Nat) (nd nd' : Node)
      (hse : s < e) (hidx : idx ≤ (((s + e) / 2 : Nat) : Int))
      (hget : h[i]? = some nd) (hget' : h'[i']? = some nd')
      (hl : nd.left = some l) (hl' : nd'.left = some l')
      (hshare : nd'.right = nd.right)
      (hrec : SharedOff h h' idx l l' s ((s + e) / 2)) :
      SharedOff h h' idx i i' s e
  | goR (i i' s e r r' : Nat) (nd nd' : Node)
      (hse : s < e) (hidx : ¬ idx ≤ (((s + e) / 2 : Nat) : Int))
      (hget : h[i]? = some nd) (hget' : h'[i']? = some nd')
      (hr : nd.right = some r) (hr' : nd'.right = some r')
      (hshare : nd'.left = nd.left)
      (hrec : SharedOff h h' idx r r' ((s + e) / 2 + 1) e) :
      SharedOff h h' idx i i' s e

/-- Reachability of heap nodes through child references. -/
inductive ReachNode (h : Heap) : Nat → Nat → Prop
  | refl (i : Nat) : ReachNode h i i
  | goL (i j l : Nat) (nd : Node) (hget : h[i]? = some nd) (hl : nd.left = some l)
      (hrec : ReachNode h l j) : ReachNode h i j
  | goR (i j r : Nat) (nd : Node) (hget : h[i]? = some nd) (hr : nd.right = some r)
      (hrec : ReachNode h r j) : ReachNode h i j

/-- The aggregation invariant at one node: if it has two children, its
value is the sum of the children's values. -/
def AggAt (h : Heap) (i : Nat) : Prop :=
  ∀ (nd : Node) (l r : Nat) (ndl ndr : Node),
    h[i]? = some nd → nd.left = some l → nd.right = some r →
    h[l]? = some ndl → h[r]? = some ndr →
    nd.value = ndl.value + ndr.value

/-- The state invariant tying a tree to the logical arrays of its
versions: the tree has `n ≥ 1` elements, version `v`'s root is a
well-formed segment tree over `[0, n-1]` denoting the `v`-th logical
array, and the version table is dense. -/
def Inv (t : PST) (as : List (List Int)) : Prop :=
  0 < t.n ∧ t.roots.length = as.length ∧
  ∀ v : Nat, v < as.length →
    (as.getD v []).length = t.n ∧
    ∃ (root : Nat) (vv : Int), t.roots[v]? = some root ∧
      Denotes t.heap (fun j => (as.getD v []).getD j 0) root 0 (t.n - 1) vv

/-- The concrete tree built from `[1, 2, 3, 4]` (the heap produced by
`init [1, 2, 3, 4]`), used to instantiate theorems at a concrete input. -/
def t0 : PST :=
  { n := 4,
    heap := [{ value := 1 }, { value := 2 },
      { value := 3, left := some 0, right := some 1 },
      { value := 3 }, { value := 4 },
      { value := 7, left := some 3, right := some 4 },
      { value := 10, left := some 2, right := some 5 }],
    roots := [6] }

theorem hext_refl (h : Heap) : HExt h h := fun _ _ hj => hj

theorem hext_trans {h1 h2 h3 : Heap} (a : HExt h1 h2) (b : HExt h2 h3) : HExt h1 h3 :=
  fun j nd hj => b j nd (a j nd hj)

theorem hext_append (h Δ : Heap) : HExt h (h ++ Δ) := by
  intro j nd hj
  have hlt : j < h.length := (List.getElem?_eq_some.mp hj).1
  rw [List.getElem?_append_left hlt]
  exact hj

theorem get_append_new (h : Heap) (nd : Node) : (h ++ [nd])[h.length]? = some nd :=
  List.getElem?_concat_length h nd

theorem denotes_le {h f i s e v} (hd : Denotes h f i s e v) : s ≤ e := by
  cases hd with
  | leaf => exact le_rfl
  | node _ _ _ _ _ _ _ _ hse => exact le_of_lt hse

theorem denotes_get {h f i s e v} (hd : Denotes h f i s e v) :
    ∃ nd : Node, h[i]? = some nd ∧ nd.value = v := by
  cases hd with
  | leaf _ _ nd hget _ _ hv => exact ⟨nd, hget, hv⟩
  | node _ _ _ _ _ _ _ nd _ hget _ _ hv => exact ⟨nd, hget, hv⟩

theorem denotes_mono {h h' f i s e v} (hx : HExt h h') (hd : Denotes h f i s e v) :
    Denotes h' f i s e v := by
  induction hd with
  | leaf i s nd hget hl hr hv => exact Denotes.leaf i s nd (hx i nd hget) hl hr hv
  | node i s e l r vl vr nd hse hget hl hr hv _ _ ihl ihr =>
    exact Denotes.node i s e l r vl vr nd hse (hx i nd hget) hl hr hv ihl ihr

theorem denotes_congrOn {h f g i s e v} (hd : Denotes h f i s e v)
    (hfg : ∀ j, s ≤ j → j ≤ e → f j = g j) : Denotes h g i s e v := by
  induction hd with
  | leaf i s nd hget hl hr hv =>
    have hs : f s = g s := hfg s le_rfl le_rfl
    rw [hs]
    exact Denotes.leaf i s nd hget hl hr (by rw [hv, hs])
  | node i s e l r vl vr nd hse hget hl hr hv hdl hdr ihl ihr =>
    have hmidl : s ≤ (s + e) / 2 := by omega
    have hmidr : (s + e) / 2 + 1 ≤ e := by omega
    exact Denotes.node i s e l r vl vr nd hse hget hl hr hv
      (ihl fun j h1 h2 => hfg j h1 (le_trans h2 (by omega)))
      (ihr fun j h1 h2 => hfg j (le_trans (by omega) h1) h2)

theorem sum_Icc_split (g : Nat → Int) (s m e : Nat) (h1 : s ≤ m) (h2 : m < e) :
    ∑ j ∈ Finset.Icc s e, g j =
      (∑ j ∈ Finset.Icc s m, g j) + ∑ j ∈ Finset.Icc (m + 1) e, g j := by
  rw [← Nat.Ico_succ_right, ← Nat.Ico_succ_right, ← Nat.Ico_succ_right]
  exact (Finset.sum_Ico_consecutive g (by omega) (by omega)).symm

theorem denotes_sum {h f i s e v} (hd : Denotes h f i s e v) :
    v = ∑ j ∈ Finset.Icc s e, f j := by
  induction hd with
  | leaf i s nd _ _ _ _ => simp
  | node i s e l r vl vr nd hse _ _ _ _ hdl hdr ihl ihr =>
    rw [sum_Icc_split f s ((s + e) / 2) e (by omega) (by omega), ← ihl, ← ihr]

theorem sharedOff_mono {h h2 h3 : Heap} {idx : Int} {i i' s e : Nat}
    (hx : HExt h2 h3) (hs : SharedOff h h2 idx i i' s e) : SharedOff h h3 idx i i' s e := by
  induction hs with
  | leaf i i' s => exact SharedOff.leaf i i' s
  | goL i i' s e l l' nd nd' hse hidx hget hget' hl hl' hshare _ ih =>
    exact SharedOff.goL i i' s e l l' nd nd' hse hidx hget (hx i' nd' hget') hl hl' hshare ih
  | goR i i' s e r r' nd nd' hse hidx hget hget' hr hr' hshare _ ih =>
    exact SharedOff.goR i i' s e r r' nd nd' hse hidx hget (hx i' nd' hget') hr hr' hshare ih

theorem clampR_left {s e : Nat} {idx : Int} (hse : s < e)
    (hidx : idx ≤ (((s + e) / 2 : Nat) : Int)) :
    clampR s e idx = clampR s ((s + e) / 2) idx := by
  unfold clampR
  split_ifs <;> omega

theorem clampR_right {s e : Nat} {idx : Int} (hse : s < e)
    (hidx : ¬ idx ≤ (((s + e) / 2 : Nat) : Int)) :
    clampR s e idx = clampR ((s + e) / 2 + 1) e idx := by
  unfold clampR
  split_ifs <;> omega

theorem clampR_le_mid {s e : Nat} {idx : Int} (hse : s < e)
    (hidx : idx ≤ (((s + e) / 2 : Nat) : Int)) :
    clampR s e idx ≤ (s + e) / 2 := by
  unfold clampR
  split_ifs <;> omega

theorem clampR_ge_mid {s e : Nat} {idx : Int} (hse : s < e)
    (hidx : ¬ idx ≤ (((s + e) / 2 : Nat) : Int)) :
    (s + e) / 2 + 1 ≤ clampR s e idx := by
  unfold clampR
  split_ifs <;> omega

theorem clampR_in {s e : Nat} {idx : Int} (h1 : (s : Int) ≤ idx) (h2 : idx ≤ (e : Int)) :
    clampR s e idx = idx.toNat := by
  unfold clampR
  split_ifs <;> omega

theorem fdiv_cast_two (a b : Nat) : Int.fdiv ((a : Int) + b) 2 = (((a + b) / 2 : Nat) : Int) := by
  have h2 : ((2 : Nat) : Int) = 2 := rfl
  rw [← Nat.cast_add, ← h2, ← Int.ofNat_fdiv]

theorem pyGet_natCast {α : Type} (l : List α) (v : Nat) : pyGet l (v : Int) = l[v]? := by
  unfold pyGet
  rw [if_pos (by exact_mod_cast Nat.zero_le v)]
  simp

theorem buildF_spec (arr : List Int) :
    ∀ (fuel : Nat), ∀ (s e : Nat) (h : Heap), e - s < fuel → s ≤ e → e < arr.length →
    ∃ (h' : Heap) (root : Nat),
      buildF arr fuel h (s : Int) (e : Int) = some (h', root) ∧ HExt h h' ∧
      Denotes h' (fun j => arr.getD j 0) root s e (∑ j ∈ Finset.Icc s e, arr.getD j 0) := by
  intro fuel
  induction fuel with
  | zero => intro s e h hf hse harr; omega
  | succ fuel ih =>
    intro s e h hf hse harr
    by_cases heq : s = e
    · subst heq
      refine ⟨h ++ [{ value := arr.getD s 0 }], h.length, ?_, hext_append h _, ?_⟩
      · simp only [buildF, if_pos (rfl : (s : Int) = (s : Int))]
        rw [pyGet_natCast, List.getElem?_eq_getElem (by omega),
          List.getD_eq_getElem arr 0 (by omega)]
        rfl
      · have hsum : (∑ j ∈ Finset.Icc s s, arr.getD j 0) = arr.getD s 0 := by simp
        rw [hsum]
        exact Denotes.leaf _ _ _ (get_append_new h _) rfl rfl rfl
    · have hlt : s < e := by omega
      obtain ⟨h1, l, heq1, hx1, hd1⟩ := ih s ((s + e) / 2) h (by omega) (by omega) (by omega)
      obtain ⟨h2, r, heq2, hx2, hd2⟩ := ih ((s + e) / 2 + 1) e h1 (by omega) (by omega) harr
      rw [Nat.cast_add_one] at heq2
      obtain ⟨ndl, hgl, hvl⟩ := denotes_get (denotes_mono hx2 hd1)
      obtain ⟨ndr, hgr, hvr⟩ := denotes_get hd2
      refine ⟨h2 ++ [{ value := ndl.value + ndr.value, left := some l, right := some r }],
        h2.length, ?_, hext_trans (hext_trans hx1 hx2) (hext_append h2 _), ?_⟩
      · have hne : ¬((s : Int) = (e : Int)) := by exact_mod_cast heq
        simp only [buildF, fdiv_cast_two, if_neg hne, heq1, Option.bind_eq_bind,
          Option.some_bind]
        simp only [heq2, Option.some_bind, hgl, hgr]
        rfl
      · rw [sum_Icc_split _ s ((s + e) / 2) e (by omega) (by omega)]
        exact Denotes.node _ _ _ l r _ _ _ hlt (get_append_new h2 _) rfl rfl
          (by rw [hvl, hvr])
          (denotes_mono (hext_trans hx2 (hext_append h2 _)) hd1)
          (denotes_mono (hext_append h2 _) hd2)

theorem clampR_self (s : Nat) (idx : Int) : clampR s s idx = s := by
  unfold clampR
  split_ifs <;> omega

theorem pathLen_leaf (s : Nat) (idx : Int) : pathLen s s idx = 1 := by
  rw [pathLen]
  simp

theorem pathLen_left {s e : Nat} {idx : Int} (hse : s < e)
    (hidx : idx ≤ (((s + e) / 2 : Nat) : Int)) :
    pathLen s e idx = 1 + pathLen s ((s + e) / 2) idx := by
  rw [pathLen]
  rw [if_neg (by omega), if_pos hidx]

theorem pathLen_right {s e : Nat} {idx : Int} (hse : s < e)
    (hidx : ¬ idx ≤ (((s + e) / 2 : Nat) : Int)) :
    pathLen s e idx = 1 + pathLen ((s + e) / 2 + 1) e idx := by
  rw [pathLen]
  rw [if_neg (by omega), if_neg hidx]

theorem updateF_spec :
    ∀ (fuel : Nat) (h : Heap) (i s e : Nat) (f : Nat → Int) (v : Int) (idx val : Int),
    e - s < fuel → Denotes h f i s e v →
    ∃ (h' : Heap) (i' : Nat) (v' : Int),
      updateF fuel h i (s : Int) (e : Int) idx val = some (h', i') ∧
      HExt h h' ∧
      h'.length = h.length + pathLen s e idx ∧
      Denotes h' (fun j => if j = clampR s e idx then val else f j) i' s e v' ∧
      SharedOff h h' idx i i' s e := by
  intro fuel
  induction fuel with
  | zero => intro h i s e f v idx val hf hd; omega
  | succ fuel ih =>
    intro h i s e f v idx val hf hd
    cases hd with
    | leaf i s nd hget hl hr hv =>
      refine ⟨h ++ [{ value := val }], h.length, val, ?_, hext_append h _, ?_, ?_,
        SharedOff.leaf i h.length s⟩
      · simp only [updateF, if_pos (rfl : (s : Int) = (s : Int))]
        rfl
      · simp [pathLen_leaf]
      · have hleaf := Denotes.leaf (h := h ++ [{ value := val }])
          (f := fun j => if j = clampR s s idx then val else f j)
          h.length s { value := val } (get_append_new h _) rfl rfl (by simp [clampR_self])
        simpa [clampR_self] using hleaf
    | node i s e l r vl vr nd hse hget hl hr hv hdl hdr =>
      have hne : ¬((s : Int) = (e : Int)) := by exact_mod_cast Nat.ne_of_lt hse
      by_cases hidx : idx ≤ (((s + e) / 2 : Nat) : Int)
      · obtain ⟨h1, l', v1, hequ, hx1, hlen1, hd1', hsh1⟩ :=
          ih h l s ((s + e) / 2) f vl idx val (by omega) hdl
        obtain ⟨ndl, hgl', hvl'⟩ := denotes_get hd1'
        obtain ⟨ndr, hgr', hvr'⟩ := denotes_get (denotes_mono hx1 hdr)
        refine ⟨h1 ++ [{ value := ndl.value + ndr.value, left := some l', right := some r }],
          h1.length, v1 + vr, ?_, hext_trans hx1 (hext_append h1 _), ?_, ?_, ?_⟩
        · simp only [updateF, fdiv_cast_two, if_neg hne, Option.bind_eq_bind, hget,
            Option.some_bind]
          rw [if_pos hidx]
          simp only [hl, Option.some_bind, hequ, hr, hgl', hgr']
          rfl
        · rw [pathLen_left hse hidx]
          simp only [List.length_append, List.length_singleton, hlen1]
          omega
        · have hfeq : (fun j => if j = clampR s e idx then val else f j) =
              (fun j => if j = clampR s ((s + e) / 2) idx then val else f j) := by
            funext j
            rw [clampR_left hse hidx]
          rw [hfeq]
          refine Denotes.node _ _ _ l' r v1 vr _ hse (get_append_new h1 _) rfl rfl
            (by rw [hvl', hvr']) (denotes_mono (hext_append h1 _) hd1') ?_
          have hc : clampR s ((s + e) / 2) idx ≤ (s + e) / 2 := by
            rw [← clampR_left hse hidx]
            exact clampR_le_mid hse hidx
          refine denotes_congrOn
            (denotes_mono (hext_trans hx1 (hext_append h1 _)) hdr) ?_
          intro j hj1 hj2
          rw [if_neg (by omega)]
        · exact SharedOff.goL i h1.length s e l l' nd
            { value := ndl.value + ndr.value, left := some l', right := some r }
            hse hidx hget (get_append_new h1 _) hl rfl (by rw [hr])
            (sharedOff_mono (hext_append h1 _) hsh1)
      · obtain ⟨h1, r', v1, hequ, hx1, hlen1, hd1', hsh1⟩ :=
          ih h r ((s + e) / 2 + 1) e f vr idx val (by omega) hdr
        rw [Nat.cast_add_one] at hequ
        obtain ⟨ndr, hgr', hvr'⟩ := denotes_get hd1'
        obtain ⟨ndl, hgl', hvl'⟩ := denotes_get (denotes_mono hx1 hdl)
        refine ⟨h1 ++ [{ value := ndl.value + ndr.value, left := some l, right := some r' }],
          h1.length, vl + v1, ?_, hext_trans hx1 (hext_append h1 _), ?_, ?_, ?_⟩
        · simp only [updateF, fdiv_cast_two, if_neg hne, Option.bind_eq_bind, hget,
            Option.some_bind]
          rw [if_neg hidx]
          simp only [hr, Option.some_bind, hequ, hl, hgl', hgr']
          rfl
        · rw [pathLen_right hse hidx]
          simp only [List.length_append, List.length_singleton, hlen1]
          omega
        · have hfeq : (fun j => if j = clampR s e idx then val else f j) =
              (fun j => if j = clampR ((s + e) / 2 + 1) e idx then val else f j) := by
            funext j
            rw [clampR_right hse hidx]
          rw [hfeq]
          refine Denotes.node _ _ _ l r' vl v1 _ hse (get_append_new h1 _) rfl rfl
            (by rw [hvl', hvr']) ?_ (denotes_mono (hext_append h1 _) hd1')
          have hc : (s + e) / 2 + 1 ≤ clampR ((s + e) / 2 + 1) e idx := by
            rw [← clampR_right hse hidx]
            exact clampR_ge_mid hse hidx
          refine denotes_congrOn
            (denotes_mono (hext_trans hx1 (hext_append h1 _)) hdl) ?_
          intro j hj1 hj2
          rw [if_neg (by omega)]
        · exact SharedOff.goR i h1.length s e r r' nd
            { value := ndl.value + ndr.value, left := some l, right := some r' }
            hse hidx hget (get_append_new h1 _) hr rfl (by rw [hl])
            (sharedOff_mono (hext_append h1 _) hsh1)

theorem queryF_denotes (f : Nat → Int) (lq rq : Int) :
    ∀ (fuel : Nat) (h : Heap) (i s e : Nat) (v : Int), e - s < fuel → Denotes h f i s e v →
    queryF fuel h i (s : Int) (e : Int) lq rq =
      some (∑ j ∈ Finset.Icc s e, if lq ≤ (j : Int) ∧ (j : Int) ≤ rq then f j else 0) := by
  intro fuel
  induction fuel with
  | zero => intro h i s e v hf hd; omega
  | succ fuel ih =>
    intro h i s e v hf hd
    by_cases hdis : lq > (e : Int) ∨ rq < (s : Int)
    · have hsum : (∑ j ∈ Finset.Icc s e, if lq ≤ (j : Int) ∧ (j : Int) ≤ rq then f j else 0)
          = 0 := by
        apply Finset.sum_eq_zero
        intro j hj
        rw [Finset.mem_Icc] at hj
        rw [if_neg (by omega)]
      rw [hsum]
      simp only [queryF, if_pos hdis]
    · by_cases htot : lq ≤ (s : Int) ∧ rq ≥ (e : Int)
      · obtain ⟨nd, hget, hvnd⟩ := denotes_get hd
        have hsum : (∑ j ∈ Finset.Icc s e, if lq ≤ (j : Int) ∧ (j : Int) ≤ rq then f j else 0)
            = ∑ j ∈ Finset.Icc s e, f j := by
          apply Finset.sum_congr rfl
          intro j hj
          rw [Finset.mem_Icc] at hj
          rw [if_pos (by omega)]
        rw [hsum]
        simp only [queryF, if_neg hdis, if_pos htot, hget]
        have hnv : nd.value = ∑ j ∈ Finset.Icc s e, f j := by rw [hvnd, denotes_sum hd]
        rw [← hnv]
        rfl
      · cases hd with
        | leaf i s nd hget hl hr hv =>
          exfalso
          push_neg at hdis htot
          omega
        | node i s e lc rc vl vr nd hse hget hl hr hv hdl hdr =>
          have hql := ih h lc s ((s + e) / 2) vl (by omega) hdl
          have hqr := ih h rc ((s + e) / 2 + 1) e vr (by omega) hdr
          rw [Nat.cast_add_one] at hqr
          simp only [queryF, if_neg hdis, if_neg htot, fdiv_cast_two, Option.bind_eq_bind,
            hget, Option.some_bind, hl, hql]
          simp only [Option.some_bind, hr, hqr]
          rw [sum_Icc_split (fun j => if lq ≤ (j : Int) ∧ (j : Int) ≤ rq then f j else 0)
            s ((s + e) / 2) e (by omega) (by omega)]

theorem pyGet_nonneg {α : Type} (l : List α) {i : Int} (hi : 0 ≤ i) :
    pyGet l i = l[i.toNat]? := by
  unfold pyGet
  rw [if_pos hi]

theorem getD_set_lt (l : List Int) (k : Nat) (x : Int) (hk : k < l.length) (j : Nat) :
    (l.set k x).getD j 0 = if j = k then x else l.getD j 0 := by
  rcases eq_or_ne j k with rfl | hne
  · rw [if_pos rfl, List.getD_eq_getElem?_getD, List.getElem?_set_eq_of_lt x hk]
    rfl
  · rw [if_neg hne, List.getD_eq_getElem?_getD, List.getElem?_set_ne (Ne.symm hne),
      ← List.getD_eq_getElem?_getD]

theorem getD_append_lt {α : Type} (as bs : List α) (v : Nat) (d : α) (hv : v < as.length) :
    (as ++ bs).getD v d = as.getD v d := by
  rw [List.getD_eq_getElem?_getD, List.getElem?_append_left hv, ← List.getD_eq_getElem?_getD]

theorem getD_concat_self {α : Type} (as : List α) (a d : α) :
    (as ++ [a]).getD as.length d = a := by
  rw [List.getD_eq_getElem?_getD, List.getElem?_concat_length]
  rfl

theorem init_inv (arr : List Int) (ha : arr ≠ []) :
    ∃ t : PST, init arr = some t ∧ t.n = arr.length ∧ Inv t [arr] := by
  have hn : 0 < arr.length := List.length_pos.mpr ha
  obtain ⟨h', root, heq, hx, hd⟩ :=
    buildF_spec arr (arr.length + 1) 0 (arr.length - 1) [] (by omega) (by omega) (by omega)
  rw [Nat.cast_zero] at heq
  have hcast : ((arr.length - 1 : Nat) : Int) = (arr.length : Int) - 1 := by
    rw [Nat.cast_sub hn, Nat.cast_one]
  rw [hcast] at heq
  refine ⟨{ n := arr.length, heap := h', roots := [root] }, ?_, rfl, hn, rfl, ?_⟩
  · unfold init
    rw [heq]
    rfl
  · intro v hv
    have hv0 : v = 0 := by simpa using hv
    subst hv0
    refine ⟨by simp, root, ∑ j ∈ Finset.Icc 0 (arr.length - 1), arr.getD j 0, rfl, ?_⟩
    simpa using hd

theorem update_any {t : PST} {as : List (List Int)} (hinv : Inv t as)
    (b idx val : Int) (hb0 : 0 ≤ b) (hb : b < (as.length : Int)) :
    ∃ (t' : PST) (root nr : Nat) (v' : Int),
      update t b idx val = some (t', t.roots.length) ∧
      pyGet t.roots b = some root ∧
      t'.roots = t.roots ++ [nr] ∧ t'.n = t.n ∧
      t'.heap.length = t.heap.length + pathLen 0 (t.n - 1) idx ∧
      SharedOff t.heap t'.heap idx root nr 0 (t.n - 1) ∧
      HExt t.heap t'.heap ∧
      Denotes t'.heap
        (fun j => if j = clampR 0 (t.n - 1) idx then val
                  else (as.getD b.toNat []).getD j 0) nr 0 (t.n - 1) v' := by
  obtain ⟨hn, hlen, hv⟩ := hinv
  have hbn : b.toNat < as.length := by omega
  obtain ⟨hblen, root, vb, hroot, hdb⟩ := hv b.toNat hbn
  have hpy : pyGet t.roots b = some root := by
    rw [pyGet_nonneg t.roots hb0]
    exact hroot
  obtain ⟨h', i', v', hequ, hx, hlen', hd', hsh⟩ :=
    updateF_spec (t.n + 1) t.heap root 0 (t.n - 1)
      (fun j => (as.getD b.toNat []).getD j 0) vb idx val (by omega) hdb
  rw [Nat.cast_zero] at hequ
  have hcast : ((t.n - 1 : Nat) : Int) = (t.n : Int) - 1 := by
    rw [Nat.cast_sub hn, Nat.cast_one]
  rw [hcast] at hequ
  refine ⟨{ n := t.n, heap := h', roots := t.roots ++ [i'] }, root, i', v',
    ?_, hpy, rfl, rfl, hlen', hsh, hx, hd'⟩
  unfold update
  rw [hpy]
  simp only [Option.bind_eq_bind, Option.some_bind, hequ]

theorem update_step {t : PST} {as : List (List Int)} (hinv : Inv t as)
    (b idx val : Int) (hb0 : 0 ≤ b) (hb : b < (as.length : Int))
    (hi0 : 0 ≤ idx) (hin : idx < (t.n : Int)) :
    ∃ t' : PST,
      update t b idx val = some (t', t.roots.length) ∧
      Inv t' (as ++ [(as.getD b.toNat []).set idx.toNat val]) ∧
      HExt t.heap t'.heap ∧
      (∃ nr : Nat, t'.roots = t.roots ++ [nr]) ∧ t'.n = t.n := by
  obtain ⟨t', root, nr, v', hupd, hpy, hroots', hn', hhlen, hsh, hx, hd'⟩ :=
    update_any hinv b idx val hb0 hb
  obtain ⟨hn, hlen, hv⟩ := hinv
  have hbn : b.toNat < as.length := by omega
  have hblen : (as.getD b.toNat []).length = t.n := (hv b.toNat hbn).1
  have hclamp : clampR 0 (t.n - 1) idx = idx.toNat := by
    apply clampR_in (by exact_mod_cast hi0)
    rw [Nat.cast_sub hn, Nat.cast_one]
    omega
  refine ⟨t', hupd, ?_, hx, ⟨nr, hroots'⟩, hn'⟩
  refine ⟨by rw [hn']; exact hn, ?_, ?_⟩
  · rw [hroots']
    simp [hlen]
  · intro w hw
    simp only [List.length_append, List.length_singleton] at hw
    rcases lt_or_eq_of_le (Nat.lt_succ_iff.mp hw) with hlt | heqw
    · obtain ⟨hwlen, rw_, vw, hrw, hdw⟩ := hv w hlt
      rw [getD_append_lt as _ w [] hlt]
      refine ⟨by rw [hn']; exact hwlen, rw_, vw, ?_, ?_⟩
      · rw [hroots', List.getElem?_append_left (by omega)]
        exact hrw
      · rw [hn']
        exact denotes_mono hx hdw
    · subst heqw
      rw [getD_concat_self as _ []]
      refine ⟨by rw [List.length_set, hn']; exact hblen, nr, v', ?_, ?_⟩
      · rw [hroots', ← hlen]
        exact List.getElem?_concat_length t.roots nr
      · rw [hn']
        refine denotes_congrOn hd' ?_
        intro j hj1 hj2
        rw [hclamp, getD_set_lt _ _ _ (by omega) j]

theorem runOps_inv :
    ∀ (ops : List Op) (t : PST) (as : List (List Int)), Inv t as →
    opsValid t.n as.length ops = true →
    ∃ (tf : PST) (ids : List Nat),
      runOps t ops = some (tf, ids) ∧
      Inv tf (ops.foldl oracleStep as) ∧
      ids = List.range' as.length ops.length ∧
      HExt t.heap tf.heap ∧
      (∀ v : Nat, v < t.roots.length → tf.roots[v]? = t.roots[v]?) ∧
      tf.n = t.n ∧ tf.roots.length = t.roots.length + ops.length := by
  intro ops
  induction ops with
  | nil =>
    intro t as hinv hval
    exact ⟨t, [], rfl, hinv, by simp, hext_refl t.heap, fun v hv => rfl, rfl, by simp⟩
  | cons op rest ih =>
    intro t as hinv hval
    obtain ⟨v, i, x⟩ := op
    simp only [opsValid, Bool.and_eq_true, decide_eq_true_eq] at hval
    obtain ⟨⟨hv0, hvlt, hi0, hilt⟩, hvalrest⟩ := hval
    obtain ⟨t', hupd, hinv', hx', ⟨nr, hroots'⟩, hn'⟩ :=
      update_step hinv v i x hv0 hvlt hi0 hilt
    obtain ⟨tf, ids, hrun, hinvf, hids, hxf, hpres, hnf, hlenf⟩ :=
      ih t' (as ++ [(as.getD v.toNat []).set i.toNat x]) hinv'
        (by simpa [hn'] using hvalrest)
    have hlenr : t.roots.length = as.length := hinv.2.1
    refine ⟨tf, t.roots.length :: ids, ?_, ?_, ?_, hext_trans hx' hxf, ?_, by rw [hnf, hn'], ?_⟩
    · simp only [runOps, Option.bind_eq_bind, hupd, Option.some_bind, hrun]
    · simpa [List.foldl_cons, oracleStep] using hinvf
    · rw [hids, hlenr, List.length_cons, List.range'_succ]
      simp
    · intro w hw
      have hw' : w < t'.roots.length := by
        rw [hroots']
        simp only [List.length_append, List.length_singleton]
        omega
      rw [hpres w hw', hroots', List.getElem?_append_left hw]
    · have h1 : t'.roots.length = t.roots.length + 1 := by
        rw [hroots']
        simp
      rw [List.length_cons]
      omega

theorem run_inv (arr : List Int) (ops : List Op) (ha : arr ≠ [])
    (hops : opsValid arr.length 1 ops = true) :
    ∃ (tf : PST) (ids : List Nat), run arr ops = some (tf, ids) ∧
      Inv tf (oracleArrays arr ops) ∧
      ids = List.range' 1 ops.length ∧ tf.n = arr.length ∧
      tf.roots.length = ops.length + 1 := by
  obtain ⟨t0, hinit, hn0, hinv0⟩ := init_inv arr ha
  have hr0 : t0.roots.length = 1 := by
    have := hinv0.2.1
    simpa using this
  obtain ⟨tf, ids, hrun, hinvf, hids, _, _, hnf, hlenf⟩ :=
    runOps_inv ops t0 [arr] hinv0 (by simpa [hn0] using hops)
  refine ⟨tf, ids, ?_, hinvf, by simpa using hids, by rw [hnf, hn0], by rw [hlenf, hr0]; omega⟩
  unfold run
  rw [hinit]
  simpa using hrun

theorem denotes_of_reach {h : Heap} {f : Nat → Int} :
    ∀ {i j : Nat}, ReachNode h i j → ∀ {s e : Nat} {v : Int}, Denotes h f i s e v →
    ∃ (s' e' : Nat) (v' : Int), Denotes h f j s' e' v' := by
  intro i j hr
  induction hr with
  | refl i => exact fun hd => ⟨_, _, _, hd⟩
  | goL i j l nd hget hl hrec ih =>
    intro s e v hd
    cases hd with
    | leaf i s nd' hget' hl' hr' hv' =>
      rw [hget'] at hget
      cases Option.some.inj hget
      rw [hl'] at hl
      cases hl
    | node i s e lc rc vl vr nd' hse hget' hl' hr' hv' hdl hdr =>
      rw [hget'] at hget
      cases Option.some.inj hget
      rw [hl'] at hl
      cases Option.some.inj hl
      exact ih hdl
  | goR i j r nd hget hr hrec ih =>
    intro s e v hd
    cases hd with
    | leaf i s nd' hget' hl' hr' hv' =>
      rw [hget'] at hget
      cases Option.some.inj hget
      rw [hr'] at hr
      cases hr
    | node i s e lc rc vl vr nd' hse hget' hl' hr' hv' hdl hdr =>
      rw [hget'] at hget
      cases Option.some.inj hget
      rw [hr'] at hr
      cases Option.some.inj hr
      exact ih hdr

theorem denotes_agg {h : Heap} {f : Nat → Int} {i s e : Nat} {v : Int}
    (hd : Denotes h f i s e v) : AggAt h i := by
  cases hd with
  | leaf i s nd hget hl hr hv =>
    intro nd' l r ndl ndr hget' hl' hr' hgl hgr
    rw [hget] at hget'
    cases Option.some.inj hget'
    rw [hl] at hl'
    cases hl'
  | node i s e lc rc vl vr nd hse hget hl hr hv hdl hdr =>
    intro nd' l r ndl ndr hget' hl' hr' hgl hgr
    rw [hget] at hget'
    cases Option.some.inj hget'
    rw [hl] at hl'
    cases Option.some.inj hl'
    rw [hr] at hr'
    cases Option.some.inj hr'
    obtain ⟨ndl0, hgl0, hvl0⟩ := denotes_get hdl
    obtain ⟨ndr0, hgr0, hvr0⟩ := denotes_get hdr
    rw [hgl0] at hgl
    cases Option.some.inj hgl
    rw [hgr0] at hgr
    cases Option.some.inj hgr
    rw [hv, hvl0, hvr0]

theorem pathLen_le (idx : Int) :
    ∀ (d s e : Nat), e - s ≤ d → s ≤ e →
    pathLen s e idx ≤ Nat.clog 2 (e - s + 1) + 1 := by
  intro d
  induction d with
  | zero =>
    intro s e h1 h2
    have heq : s = e := by omega
    subst heq
    rw [pathLen_leaf]
    simp
  | succ d ih =>
    intro s e h1 h2
    rcases eq_or_lt_of_le h2 with rfl | hlt
    · rw [pathLen_leaf]
      simp
    · have hsz : 2 ≤ e - s + 1 := by omega
      have hclog : Nat.clog 2 (e - s + 1) = Nat.clog 2 ((e - s + 1 + 2 - 1) / 2) + 1 :=
        Nat.clog_of_two_le (by norm_num) hsz
      by_cases hidx : idx ≤ (((s + e) / 2 : Nat) : Int)
      · rw [pathLen_left hlt hidx]
        have hrec := ih s ((s + e) / 2) (by omega) (by omega)
        have hmono := Nat.clog_mono_right 2
          (show (s + e) / 2 - s + 1 ≤ (e - s + 1 + 2 - 1) / 2 by omega)
        omega
      · rw [pathLen_right hlt hidx]
        have hrec := ih ((s + e) / 2 + 1) e (by omega) (by omega)
        have hmono := Nat.clog_mono_right 2
          (show e - ((s + e) / 2 + 1) + 1 ≤ (e - s + 1 + 2 - 1) / 2 by omega)
        omega

theorem runOps_split (k : Nat) :
    ∀ (ops : List Op) (t tf : PST) (ids : List Nat), runOps t ops = some (tf, ids) →
    ∃ tk : PST, runOps t (ops.take k) = some (tk, ids.take k) ∧
      runOps tk (ops.drop k) = some (tf, ids.drop k) := by
  induction k with
  | zero =>
    intro ops t tf ids hrun
    exact ⟨t, rfl, hrun⟩
  | succ k ih =>
    intro ops t tf ids hrun
    cases ops with
    | nil =>
      have h1 : t = tf ∧ ids = [] := by
        simp only [runOps] at hrun
        have h2 := Option.some.inj hrun
        exact ⟨congrArg Prod.fst h2, (congrArg Prod.snd h2).symm⟩
      obtain ⟨rfl, rfl⟩ := h1
      exact ⟨t, rfl, rfl⟩
    | cons op rest =>
      obtain ⟨v, i, x⟩ := op
      simp only [runOps, Option.bind_eq_bind] at hrun
      cases hupd : update t v i x with
      | none => rw [hupd] at hrun; cases hrun
      | some p =>
        rw [hupd] at hrun
        simp only [Option.some_bind] at hrun
        cases hrest : runOps p.1 rest with
        | none => rw [hrest] at hrun; cases hrun
        | some q =>
          rw [hrest] at hrun
          simp only [Option.some_bind] at hrun
          have h2 := Option.some.inj hrun
          have hq1 : q.1 = tf := congrArg Prod.fst h2
          have hq2 : p.2 :: q.2 = ids := congrArg Prod.snd h2
          obtain ⟨tk, htake, hdrop⟩ := ih rest p.1 q.1 q.2 (by rw [hrest])
          refine ⟨tk, ?_, ?_⟩
          · rw [List.take_succ_cons, ← hq2, List.take_succ_cons]
            simp only [runOps, Option.bind_eq_bind, hupd, Option.some_bind, htake]
          · rw [List.drop_succ_cons, ← hq2, List.drop_succ_cons, hdrop, hq1]

theorem opsValid_take (n : Nat) :
    ∀ (ops : List Op) (count k : Nat), opsValid n count ops = true →
    opsValid n count (ops.take k) = true := by
  intro ops
  induction ops with
  | nil => intro count k hval; simp [List.take_nil, opsValid]
  | cons op rest ih =>
    intro count k hval
    obtain ⟨v, i, x⟩ := op
    cases k with
    | zero => simp [opsValid]
    | succ k =>
      simp only [List.take_succ_cons, opsValid, Bool.and_eq_true] at hval ⊢
      exact ⟨hval.1, ih (count + 1) k hval.2⟩

theorem opsValid_drop (n : Nat) :
    ∀ (ops : List Op) (count k : Nat), opsValid n count ops = true →
    opsValid n (count + k) (ops.drop k) = true := by
  intro ops
  induction ops with
  | nil => intro count k hval; simp [List.drop_nil, opsValid]
  | cons op rest ih =>
    intro count k hval
    obtain ⟨v, i, x⟩ := op
    cases k with
    | zero => simpa using hval
    | succ k =>
      simp only [opsValid, Bool.and_eq_true] at hval
      rw [List.drop_succ_cons]
      have := ih (count + 1) k hval.2
      have harith : count + 1 + k = count + (k + 1) := by omega
      rwa [harith] at this

theorem sum_ite_Icc (f : Nat → Int) (n l r : Nat) (hr : r ≤ n) :
    (∑ j ∈ Finset.Icc 0 n, if (l : Int) ≤ (j : Int) ∧ (j : Int) ≤ (r : Int) then f j else 0)
      = ∑ j ∈ Finset.Icc l r, f j := by
  rw [← Finset.sum_filter]
  apply Finset.sum_congr _ (fun x _ => rfl)
  ext j
  simp only [Finset.mem_filter, Finset.mem_Icc]
  omega

/-- C1: for every tree built from a sequence of `n ≥ 1` integers followed
by any valid sequence of updates, every valid version id `v` and indices
`0 ≤ left ≤ right ≤ n-1`, `query(v, left, right)` returns exactly the sum
of version `v`'s logical array over `[left, right]`, where the logical
arrays are the build input with each update applied in turn
(`oracleArrays`, the spec's reference oracle). -/
theorem C1_query_range_sum (arr : List Int) (ops : List Op) (t : PST) (ids : List Nat)
    (ha : arr ≠ []) (hops : opsValid arr.length 1 ops = true)
    (hrun : run arr ops = some (t, ids))
    (v l r : Nat) (hv : v < t.roots.length) (hlr : l ≤ r) (hr : r < arr.length) :
    query t (v : Int) (l : Int) (r : Int) =
      some (∑ j ∈ Finset.Icc l r, ((oracleArrays arr ops).getD v []).getD j 0) := by
  obtain ⟨tf, ids', hteq, hinv, hids, hn, hlen⟩ := run_inv arr ops ha hops
  rw [hteq] at hrun
  have h2 := Option.some.inj hrun
  have ht : tf = t := congrArg Prod.fst h2
  subst ht
  obtain ⟨hn0, hlenroots, hvs⟩ := hinv
  have hvlen : v < (oracleArrays arr ops).length := by omega
  obtain ⟨hlenarr, root, vv, hroot, hd⟩ := hvs v hvlen
  unfold query
  have hpy : pyGet tf.roots (v : Int) = some root := by
    rw [pyGet_natCast]
    exact hroot
  rw [hpy]
  simp only [Option.bind_eq_bind, Option.some_bind]
  have hq := queryF_denotes (fun j => ((oracleArrays arr ops).getD v []).getD j 0)
    (l : Int) (r : Int) (tf.n + 1) tf.heap root 0 (tf.n - 1) vv (by omega) hd
  rw [Nat.cast_zero] at hq
  have hcast : ((tf.n - 1 : Nat) : Int) = (tf.n : Int) - 1 := by
    rw [Nat.cast_sub hn0, Nat.cast_one]
  rw [hcast] at hq
  rw [hq]
  rw [sum_ite_Icc _ (tf.n - 1) l r (by omega)]

/-- C7: for every tree with `n ≥ 1` elements, every valid version `v` and
every integer pair `(left, right)` with `left > right` or with the range
entirely outside `[0, n-1]`, `query(v, left, right)` returns 0 rather
than raising an error. -/
theorem C7_degenerate_range (arr : List Int) (ops : List Op) (t : PST) (ids : List Nat)
    (ha : arr ≠ []) (hops : opsValid arr.length 1 ops = true)
    (hrun : run arr ops = some (t, ids))
    (v : Nat) (hv : v < t.roots.length) (lq rq : Int)
    (hdeg : rq < lq ∨ rq < 0 ∨ (arr.length : Int) - 1 < lq) :
    query t (v : Int) lq rq = some 0 := by
  obtain ⟨tf, ids', hteq, hinv, hids, hn, hlen⟩ := run_inv arr ops ha hops
  rw [hteq] at hrun
  have h2 := Option.some.inj hrun
  have ht : tf = t := congrArg Prod.fst h2
  subst ht
  obtain ⟨hn0, hlenroots, hvs⟩ := hinv
  have hvlen : v < (oracleArrays arr ops).length := by omega
  obtain ⟨hlenarr, root, vv, hroot, hd⟩ := hvs v hvlen
  unfold query
  have hpy : pyGet tf.roots (v : Int) = some root := by
    rw [pyGet_natCast]
    exact hroot
  rw [hpy]
  simp only [Option.bind_eq_bind, Option.some_bind]
  have hq := queryF_denotes (fun j => ((oracleArrays arr ops).getD v []).getD j 0)
    lq rq (tf.n + 1) tf.heap root 0 (tf.n - 1) vv (by omega) hd
  rw [Nat.cast_zero] at hq
  have hcast : ((tf.n - 1 : Nat) : Int) = (tf.n : Int) - 1 := by
    rw [Nat.cast_sub hn0, Nat.cast_one]
  rw [hcast] at hq
  rw [hq]
  congr 1
  apply Finset.sum_eq_zero
  intro j hj
  rw [Finset.mem_Icc] at hj
  rw [if_neg (by omega)]

/-- C8: for every root in the version table of a tree built from a
non-empty sequence (after any valid updates), every node reachable from
that root satisfies the aggregation invariant: if it has two children,
its value is the sum of the children's values. -/
theorem C8_aggregation (arr : List Int) (ops : List Op) (t : PST) (ids : List Nat)
    (ha : arr ≠ []) (hops : opsValid arr.length 1 ops = true)
    (hrun : run arr ops = some (t, ids))
    (root j : Nat) (hroot : root ∈ t.roots) (hreach : ReachNode t.heap root j) :
    AggAt t.heap j := by
  obtain ⟨tf, ids', hteq, hinv, hids, hn, hlen⟩ := run_inv arr ops ha hops
  rw [hteq] at hrun
  have ht : tf = t := congrArg Prod.fst (Option.some.inj hrun)
  subst ht
  obtain ⟨hn0, hlenroots, hvs⟩ := hinv
  obtain ⟨v, hvlt, hveq⟩ := List.mem_iff_getElem.mp hroot
  obtain ⟨_, root', vv, hroot', hd⟩ := hvs v (by omega)
  rw [List.getElem?_eq_getElem hvlt] at hroot'
  have h3 : tf.roots[v] = root' := Option.some.inj hroot'
  have hrr : root' = root := by
    rw [← hveq]
    exact h3.symm
  subst hrr
  obtain ⟨s', e', v', hd'⟩ := denotes_of_reach hreach hd
  exact denotes_agg hd'

/-- C9: the version table starts as the single version 0 created by the
build, each successful update appends exactly one root and returns the id
`len(table) - 1` taken after the append, so a build followed by `k`
updates yields ids `0, 1, ..., k` in order (the update calls return
`1..k`), and no table entry is ever replaced or removed: every prefix of
the final table coincides with the table as it stood after the
corresponding prefix of updates. -/
theorem C9_versioning (arr : List Int) (ops : List Op) (t : PST) (ids : List Nat)
    (ha : arr ≠ []) (hops : opsValid arr.length 1 ops = true)
    (hrun : run arr ops = some (t, ids)) :
    ids = List.range' 1 ops.length ∧
    t.roots.length = ops.length + 1 ∧
    ∀ k, k ≤ ops.length →
      ∃ (tk : PST) (idsk : List Nat), run arr (ops.take k) = some (tk, idsk) ∧
        tk.roots.length = k + 1 ∧
        ∀ w : Nat, w < tk.roots.length → t.roots[w]? = tk.roots[w]? := by
  obtain ⟨tf, ids', hteq, hinv, hids, hn, hlen⟩ := run_inv arr ops ha hops
  rw [hteq] at hrun
  have h2 := Option.some.inj hrun
  have ht : tf = t := congrArg Prod.fst h2
  have hi : ids' = ids := congrArg Prod.snd h2
  subst ht
  subst hi
  refine ⟨hids, hlen, ?_⟩
  intro k hk
  obtain ⟨t0, hinit, hn0, hinv0⟩ := init_inv arr ha
  have hrun0 : runOps t0 ops = some (tf, ids') := by
    unfold run at hteq
    rw [hinit] at hteq
    simpa using hteq
  obtain ⟨tk, htake, hdrop⟩ := runOps_split k ops t0 tf ids' hrun0
  have hrtk : run arr (ops.take k) = some (tk, ids'.take k) := by
    unfold run
    rw [hinit]
    simpa using htake
  obtain ⟨tk2, idsk2, hteq2, hinv2, hids2, hn2, hlen2⟩ :=
    run_inv arr (ops.take k) ha (opsValid_take arr.length ops 1 k hops)
  rw [hrtk] at hteq2
  have h3 := Option.some.inj hteq2
  have htk : tk = tk2 := congrArg Prod.fst h3
  subst htk
  have htklen : (ops.take k).length = k := by
    rw [List.length_take]
    omega
  have hlenk : tk.roots.length = k + 1 := by
    rw [hlen2, htklen]
  refine ⟨tk, ids'.take k, hrtk, hlenk, ?_⟩
  have hvalidrest : opsValid tk.n (oracleArrays arr (ops.take k)).length (ops.drop k)
      = true := by
    have hlen3 : (oracleArrays arr (ops.take k)).length = k + 1 := by
      rw [← hinv2.2.1, hlenk]
    rw [hlen3, hn2]
    have := opsValid_drop arr.length ops 1 k hops
    have harith : 1 + k = k + 1 := by omega
    rwa [harith] at this
  obtain ⟨tf2, ids2, hrun2, _, _, _, hpres2, _, _⟩ :=
    runOps_inv (ops.drop k) tk (oracleArrays arr (ops.take k)) hinv2 hvalidrest
  rw [hdrop] at hrun2
  have h4 := Option.some.inj hrun2
  have htf2 : tf = tf2 := congrArg Prod.fst h4
  intro w hw
  rw [htf2]
  exact hpres2 w hw

theorem query_denoted {t : PST} {root : Nat} {f : Nat → Int} {vv : Int} (v : Int)
    (hv0 : 0 ≤ v) (hroot : t.roots[v.toNat]? = some root) (hn0 : 0 < t.n)
    (hd : Denotes t.heap f root 0 (t.n - 1) vv) (lq rq : Int) :
    query t v lq rq =
      some (∑ j ∈ Finset.Icc 0 (t.n - 1),
        if lq ≤ (j : Int) ∧ (j : Int) ≤ rq then f j else 0) := by
  unfold query
  rw [pyGet_nonneg t.roots hv0, hroot]
  simp only [Option.bind_eq_bind, Option.some_bind]
  have hq := queryF_denotes f lq rq (t.n + 1) t.heap root 0 (t.n - 1) vv (by omega) hd
  rw [Nat.cast_zero] at hq
  have hcast : ((t.n - 1 : Nat) : Int) = (t.n : Int) - 1 := by
    rw [Nat.cast_sub hn0, Nat.cast_one]
  rw [hcast] at hq
  exact hq

/-- C2: after `update(b, index, value)` on a tree with `n ≥ 1` elements,
an existing version `b` and an in-bounds index: every node allocated
before the update is unchanged (same index, same value, same children),
the old version-table entries are unchanged, `query(b, l, r)` returns the
same result as before for every range, and the new version's logical
array is `b`'s array with only the addressed position replaced. -/
theorem C2_update_frame (arr : List Int) (ops : List Op) (t : PST) (ids : List Nat)
    (ha : arr ≠ []) (hops : opsValid arr.length 1 ops = true)
    (hrun : run arr ops = some (t, ids))
    (b idx val : Int) (hb0 : 0 ≤ b) (hb : b < (t.roots.length : Int))
    (hi0 : 0 ≤ idx) (hin : idx < (arr.length : Int)) :
    ∃ (t' : PST) (nid : Nat),
      update t b idx val = some (t', nid) ∧ nid = t.roots.length ∧
      (∀ (j : Nat) (nd : Node), t.heap[j]? = some nd → t'.heap[j]? = some nd) ∧
      (∀ w : Nat, w < t.roots.length → t'.roots[w]? = t.roots[w]?) ∧
      (∀ lq rq : Int, query t' b lq rq = query t b lq rq) ∧
      (∀ j : Nat, j < arr.length →
        query t' (nid : Int) (j : Int) (j : Int) =
          some ((((oracleArrays arr ops).getD b.toNat []).set idx.toNat val).getD j 0)) := by
  obtain ⟨tf, ids', hteq, hinv, hids, hn, hlen⟩ := run_inv arr ops ha hops
  rw [hteq] at hrun
  have ht : tf = t := congrArg Prod.fst (Option.some.inj hrun)
  subst ht
  have hlenas : tf.roots.length = (oracleArrays arr ops).length := hinv.2.1
  have hb' : b < ((oracleArrays arr ops).length : Int) := by
    rw [← hlenas]
    exact hb
  have hin' : idx < (tf.n : Int) := by
    rw [hn]
    exact hin
  obtain ⟨t', hupd, hinv', hx', ⟨nr, hroots'⟩, hn'⟩ :=
    update_step hinv b idx val hb0 hb' hi0 hin'
  obtain ⟨hn0, _, hvs⟩ := hinv
  have hbn : b.toNat < tf.roots.length := by omega
  obtain ⟨hblen, rootb, vb, hrootb, hdb⟩ := hvs b.toNat (by omega)
  have hrootb' : t'.roots[b.toNat]? = some rootb := by
    rw [hroots', List.getElem?_append_left hbn]
    exact hrootb
  refine ⟨t', tf.roots.length, hupd, rfl, hx', ?_, ?_, ?_⟩
  · intro w hw
    rw [hroots', List.getElem?_append_left hw]
  · intro lq rq
    have hq1 := query_denoted b hb0 hrootb hn0 hdb lq rq
    have hq2 := query_denoted (t := t') b hb0 hrootb' (by rw [hn']; exact hn0)
      (by rw [hn']; exact denotes_mono hx' hdb) lq rq
    rw [hq1, hq2, hn']
  · intro j hj
    obtain ⟨_, _, hvs'⟩ := hinv'
    have hnew : (oracleArrays arr ops).length <
        ((oracleArrays arr ops) ++
          [((oracleArrays arr ops).getD b.toNat []).set idx.toNat val]).length := by
      simp
    obtain ⟨hlennew, rootn, vn, hrootn, hdn⟩ := hvs' (oracleArrays arr ops).length hnew
    simp only [getD_concat_self] at hdn
    have hrootn' : t'.roots[((tf.roots.length : Int)).toNat]? = some rootn := by
      simp only [Int.toNat_natCast]
      rw [hlenas]
      exact hrootn
    have hq := query_denoted (t := t') ((tf.roots.length : Nat) : Int) (by positivity)
      hrootn' (by rw [hn']; exact hn0) hdn (j : Int) (j : Int)
    rw [hq]
    congr 1
    rw [sum_ite_Icc _ (t'.n - 1) j j (by rw [hn', hn]; omega)]
    rw [Finset.Icc_self, Finset.sum_singleton]

/-- C3 (amended): one update on a tree of `n ≥ 1` elements allocates
exactly `pathLen 0 (n-1) index` new nodes — one per level of the
root-to-leaf path actually taken — which is at most `ceil(log2 n) + 1`
(`Nat.clog 2 n + 1`), but not always equal to it: the path to a shallow
leaf is shorter (see the counterexample).  Every subtree off the update
path is shared: the child off the path of each new node is the identical
heap reference as the corresponding child of the base version's node. -/
theorem C3_path_copy (arr : List Int) (ops : List Op) (t : PST) (ids : List Nat)
    (ha : arr ≠ []) (hops : opsValid arr.length 1 ops = true)
    (hrun : run arr ops = some (t, ids))
    (b idx val : Int) (hb0 : 0 ≤ b) (hb : b < (t.roots.length : Int)) :
    ∃ (t' : PST) (root nr : Nat),
      update t b idx val = some (t', t.roots.length) ∧
      pyGet t.roots b = some root ∧
      t'.roots = t.roots ++ [nr] ∧
      t'.heap.length = t.heap.length + pathLen 0 (arr.length - 1) idx ∧
      pathLen 0 (arr.length - 1) idx ≤ Nat.clog 2 arr.length + 1 ∧
      SharedOff t.heap t'.heap idx root nr 0 (arr.length - 1) := by
  obtain ⟨tf, ids', hteq, hinv, hids, hn, hlen⟩ := run_inv arr ops ha hops
  rw [hteq] at hrun
  have ht : tf = t := congrArg Prod.fst (Option.some.inj hrun)
  subst ht
  have hb' : b < ((oracleArrays arr ops).length : Int) := by
    rw [← hinv.2.1]
    exact hb
  obtain ⟨t', root, nr, v', hupd, hpy, hroots', hn', hhlen, hsh, hx, hd'⟩ :=
    update_any hinv b idx val hb0 hb'
  rw [hn] at hhlen hsh
  refine ⟨t', root, nr, hupd, hpy, hroots', hhlen, ?_, hsh⟩
  have hb1 := pathLen_le idx (arr.length - 1) 0 (arr.length - 1) (by omega) (by omega)
  have hlen1 : arr.length - 1 - 0 + 1 = arr.length := by
    have : 0 < arr.length := List.length_pos.mpr ha
    omega
  rwa [hlen1] at hb1

/-- C3 counterexample: on `[1, 2, 3]` (so `n = 3`, `ceil(log2 3) + 1 = 3`)
updating index 2 allocates only 2 new nodes (heap grows from 5 to 7), not
exactly `ceil(log2 n) + 1 = 3`: the leaf for index 2 sits one level above
the deepest leaves. -/
theorem C3_counterexample :
    (init [1, 2, 3]).map (fun t => t.heap.length) = some 5 ∧
    ((init [1, 2, 3]).bind (fun t => update t 0 2 9)).map (fun p => p.1.heap.length)
      = some 7 ∧
    Nat.clog 2 3 + 1 = 3 ∧ (7 : Nat) - 5 ≠ 3 := by
  refine ⟨by decide, by decide, ?_, by decide⟩
  have h1 : Nat.clog 2 3 = 2 :=
    le_antisymm ((Nat.le_pow_iff_clog_le (by norm_num)).mp (by norm_num))
      ((Nat.pow_lt_iff_lt_clog (by norm_num)).mp (by norm_num))
  omega

/-- C4 (amended): `update` performs no bounds check on the index: for any
index outside `[0, n)` it still succeeds, appends exactly one new version
to the table and returns its id; the updated position is silently clamped
to the nearest boundary (see C10).  No `IndexOutOfBounds` error exists in
the code. -/
theorem C4_oob_update_succeeds (arr : List Int) (ops : List Op) (t : PST) (ids : List Nat)
    (ha : arr ≠ []) (hops : opsValid arr.length 1 ops = true)
    (hrun : run arr ops = some (t, ids))
    (b idx val : Int) (hb0 : 0 ≤ b) (hb : b < (t.roots.length : Int))
    (hoob : idx < 0 ∨ (arr.length : Int) ≤ idx) :
    ∃ t' : PST,
      update t b idx val = some (t', t.roots.length) ∧
      t'.roots.length = t.roots.length + 1 := by
  obtain ⟨tf, ids', hteq, hinv, hids, hn, hlen⟩ := run_inv arr ops ha hops
  rw [hteq] at hrun
  have ht : tf = t := congrArg Prod.fst (Option.some.inj hrun)
  subst ht
  have hb' : b < ((oracleArrays arr ops).length : Int) := by
    rw [← hinv.2.1]
    exact hb
  obtain ⟨t', root, nr, v', hupd, hpy, hroots', hn', hhlen, hsh, hx, hd'⟩ :=
    update_any hinv b idx val hb0 hb'
  refine ⟨t', hupd, ?_⟩
  rw [hroots']
  simp

/-- C4 counterexample: on the tree built from `[1, 2, 3, 4]`,
`update(0, 10, 7)` with index 10 far outside `[0, 4)` does not fail: it
appends a new version (the table grows to 2 entries) and returns id 1,
contradicting the claim that it raises `IndexOutOfBounds` and leaves the
table unchanged. -/
theorem C4_counterexample :
    ((init [1, 2, 3, 4]).bind (fun t => update t 0 10 7)).map
      (fun p => (p.1.roots.length, p.2)) = some (2, 1) := by
  decide

/-- C10: out-of-bounds update indices are silently clamped to the nearest
boundary: on a tree with `n ≥ 1` elements and an existing version `b`,
`update(b, index, value)` with `index ≥ n` succeeds and produces a
version equal to `b`'s array with element `n-1` replaced, and with
`index < 0` it succeeds and replaces element 0. -/
theorem C10_update_clamps (arr : List Int) (ops : List Op) (t : PST) (ids : List Nat)
    (ha : arr ≠ []) (hops : opsValid arr.length 1 ops = true)
    (hrun : run arr ops = some (t, ids))
    (b idx val : Int) (hb0 : 0 ≤ b) (hb : b < (t.roots.length : Int))
    (hoob : idx < 0 ∨ (arr.length : Int) ≤ idx) :
    ∃ t' : PST,
      update t b idx val = some (t', t.roots.length) ∧
      ∀ j : Nat, j < arr.length →
        query t' ((t.roots.length : Nat) : Int) (j : Int) (j : Int) =
          some (if j = (if idx < 0 then 0 else arr.length - 1) then val
                else ((oracleArrays arr ops).getD b.toNat []).getD j 0) := by
  obtain ⟨tf, ids', hteq, hinv, hids, hn, hlen⟩ := run_inv arr ops ha hops
  rw [hteq] at hrun
  have ht : tf = t := congrArg Prod.fst (Option.some.inj hrun)
  subst ht
  have hn0 : 0 < tf.n := hinv.1
  have hb' : b < ((oracleArrays arr ops).length : Int) := by
    rw [← hinv.2.1]
    exact hb
  obtain ⟨t', root, nr, v', hupd, hpy, hroots', hn', hhlen, hsh, hx, hd'⟩ :=
    update_any hinv b idx val hb0 hb'
  rw [hn] at hd'
  have hcl : clampR 0 (arr.length - 1) idx = (if idx < 0 then 0 else arr.length - 1) := by
    unfold clampR
    have hna : 0 < arr.length := List.length_pos.mpr ha
    split_ifs <;> omega
  refine ⟨t', hupd, ?_⟩
  intro j hj
  have hrootn : t'.roots[((tf.roots.length : Nat) : Int).toNat]? = some nr := by
    simp only [Int.toNat_natCast]
    rw [hroots']
    exact List.getElem?_concat_length tf.roots nr
  have hd'' : Denotes t'.heap
      (fun j => if j = clampR 0 (arr.length - 1) idx then val
                else ((oracleArrays arr ops).getD b.toNat []).getD j 0)
      nr 0 (t'.n - 1) v' := by
    rw [hn', hn]
    exact hd'
  have hq := query_denoted (t := t') ((tf.roots.length : Nat) : Int) (by positivity)
    hrootn (by rw [hn']; exact hn0) hd'' (j : Int) (j : Int)
  rw [hq]
  congr 1
  rw [sum_ite_Icc _ (t'.n - 1) j j (by rw [hn', hn]; omega)]
  rw [Finset.Icc_self, Finset.sum_singleton, hcl]

/-- C5 (amended): version ids outside Python's list-index range
(`v ≥ len(table)` or `v < -len(table)`) raise `IndexError` from
`roots[version]` in both `update` and `query`; but a negative id in
`[-len, -1]` is *not* an error: Python list indexing silently
reinterprets it as the existing version `len + v`, contradicting the
claim that negative ids are always surfaced as errors. -/
theorem C5_version_handling (t : PST) (v lq rq idx val : Int) :
    ((v < -(t.roots.length : Int) ∨ (t.roots.length : Int) ≤ v) →
      query t v lq rq = none ∧ update t v idx val = none) ∧
    ((-(t.roots.length : Int) ≤ v ∧ v < 0) →
      query t v lq rq = query t (v + t.roots.length) lq rq ∧
      update t v idx val = update t (v + t.roots.length) idx val) := by
  constructor
  · intro hbad
    have hpy : pyGet t.roots v = none := by
      unfold pyGet
      rcases hbad with h | h
      · rw [if_neg (by omega), if_pos (by omega)]
      · rw [if_pos (by omega)]
        exact List.getElem?_eq_none (by omega)
    constructor
    · unfold query
      rw [hpy]
      rfl
    · unfold update
      rw [hpy]
      rfl
  · intro hneg
    have hpy : pyGet t.roots v = pyGet t.roots (v + t.roots.length) := by
      unfold pyGet
      rw [if_neg (by omega), if_neg (by omega), if_pos (by omega)]
      have harith : ((t.roots.length : Int) + v).toNat = (v + (t.roots.length : Int)).toNat := by
        omega
      rw [harith]
    constructor
    · unfold query
      rw [hpy]
    · unfold update
      rw [hpy]

/-- C5 counterexample: on the tree built from `[1, 2, 3, 4]` (one version,
id 0), querying version `-1` does not fail: Python's negative indexing
reinterprets it as version 0 and the full-range sum 10 is returned. -/
theorem C5_counterexample :
    (init [1, 2, 3, 4]).bind (fun t => query t (-1) 0 3) = some 10 := by
  decide

/-- C6: building from the empty sequence does not terminate: `__init__`
calls `_build(arr, 0, n - 1) = _build([], 0, -1)`, whose recursive call
repeats the identical arguments `(0, -1)` (since
`mid = (0 + -1) // 2 = -1`), so no recursion depth suffices (every fuel
yields `none`, the model of the Python `RecursionError`), and no
degenerate root is ever created. -/
theorem C6_build_empty_diverges :
    (∀ (fuel : Nat) (h : Heap), buildF [] fuel h 0 (-1) = none) ∧
    init ([] : List Int) = none := by
  have hmain : ∀ (fuel : Nat) (h : Heap), buildF [] fuel h 0 (-1) = none := by
    intro fuel
    induction fuel with
    | zero => intro h; rfl
    | succ fuel ih =>
      intro h
      have hne : ¬((0 : Int) = -1) := by decide
      have hmid : Int.fdiv (0 + -1) 2 = -1 := by decide
      simp only [buildF, if_neg hne, hmid, ih, Option.bind_eq_bind, Option.none_bind]
  exact ⟨hmain, by decide⟩

theorem C1_witness :
    run [1, 2, 3, 4] [] = some (t0, []) ∧
    query t0 ((0 : Nat) : Int) ((1 : Nat) : Int) ((2 : Nat) : Int) =
      some (∑ j ∈ Finset.Icc 1 2, ((oracleArrays [1, 2, 3, 4] []).getD 0 []).getD j 0) :=
  ⟨by decide,
   C1_query_range_sum [1, 2, 3, 4] [] t0 [] (by decide) (by decide) (by decide)
     0 1 2 (by decide) (by decide) (by decide)⟩

theorem C2_witness :
    run [1, 2, 3, 4] [] = some (t0, []) ∧
    (∃ (t' : PST) (nid : Nat),
      update t0 0 1 5 = some (t', nid) ∧ nid = t0.roots.length ∧
      (∀ (j : Nat) (nd : Node), t0.heap[j]? = some nd → t'.heap[j]? = some nd) ∧
      (∀ w : Nat, w < t0.roots.length → t'.roots[w]? = t0.roots[w]?) ∧
      (∀ lq rq : Int, query t' 0 lq rq = query t0 0 lq rq) ∧
      (∀ j : Nat, j < ([1, 2, 3, 4] : List Int).length →
        query t' (nid : Int) (j : Int) (j : Int) =
          some ((((oracleArrays [1, 2, 3, 4] []).getD (0 : Int).toNat []).set
            (1 : Int).toNat 5).getD j 0))) :=
  ⟨by decide,
   C2_update_frame [1, 2, 3, 4] [] t0 [] (by decide) (by decide) (by decide)
     0 1 5 (by decide) (by decide) (by decide) (by decide)⟩

theorem C3_witness :
    run [1, 2, 3, 4] [] = some (t0, []) ∧
    (∃ (t' : PST) (root nr : Nat),
      update t0 0 1 5 = some (t', t0.roots.length) ∧
      pyGet t0.roots 0 = some root ∧
      t'.roots = t0.roots ++ [nr] ∧
      t'.heap.length = t0.heap.length + pathLen 0 (([1, 2, 3, 4] : List Int).length - 1) 1 ∧
      pathLen 0 (([1, 2, 3, 4] : List Int).length - 1) 1 ≤
        Nat.clog 2 ([1, 2, 3, 4] : List Int).length + 1 ∧
      SharedOff t0.heap t'.heap 1 root nr 0 (([1, 2, 3, 4] : List Int).length - 1)) :=
  ⟨by decide,
   C3_path_copy [1, 2, 3, 4] [] t0 [] (by decide) (by decide) (by decide)
     0 1 5 (by decide) (by decide)⟩

theorem C4_witness :
    run [1, 2, 3, 4] [] = some (t0, []) ∧
    (∃ t' : PST, update t0 0 10 7 = some (t', t0.roots.length) ∧
      t'.roots.length = t0.roots.length + 1) :=
  ⟨by decide,
   C4_oob_update_succeeds [1, 2, 3, 4] [] t0 [] (by decide) (by decide) (by decide)
     0 10 7 (by decide) (by decide) (by decide)⟩

theorem C5_witness :
    ((-3 : Int) < -(t0.roots.length : Int) ∨ (t0.roots.length : Int) ≤ -3) ∧
    query t0 (-3) 0 3 = none ∧ update t0 (-3) 0 0 = none :=
  ⟨by decide, (C5_version_handling t0 (-3) 0 3 0 0).1 (by decide)⟩

theorem C7_witness :
    run [1, 2, 3, 4] [] = some (t0, []) ∧
    query t0 ((0 : Nat) : Int) 3 1 = some 0 :=
  ⟨by decide,
   C7_degenerate_range [1, 2, 3, 4] [] t0 [] (by decide) (by decide) (by decide)
     0 (by decide) 3 1 (by decide)⟩

theorem C8_witness :
    run [1, 2, 3, 4] [] = some (t0, []) ∧ AggAt t0.heap 6 :=
  ⟨by decide,
   C8_aggregation [1, 2, 3, 4] [] t0 [] (by decide) (by decide) (by decide)
     6 6 (by decide) (ReachNode.refl 6)⟩

theorem C9_witness :
    run [1, 2, 3, 4] [] = some (t0, []) ∧
    (([] : List Nat) = List.range' 1 ([] : List Op).length ∧
    t0.roots.length = ([] : List Op).length + 1 ∧
    ∀ k, k ≤ ([] : List Op).length →
      ∃ (tk : PST) (idsk : List Nat),
        run [1, 2, 3, 4] (([] : List Op).take k) = some (tk, idsk) ∧
        tk.roots.length = k + 1 ∧
        ∀ w : Nat, w < tk.roots.length → t0.roots[w]? = tk.roots[w]?) :=
  ⟨by decide, C9_versioning [1, 2, 3, 4] [] t0 [] (by decide) (by decide) (by decide)⟩

theorem C10_witness :
    run [1, 2, 3, 4] [] = some (t0, []) ∧
    (∃ t' : PST, update t0 0 (-5) 9 = some (t', t0.roots.length) ∧
      ∀ j : Nat, j < ([1, 2, 3, 4] : List Int).length →
        query t' ((t0.roots.length : Nat) : Int) (j : Int) (j : Int) =
          some (if j = (if (-5 : Int) < 0 then 0 else ([1, 2, 3, 4] : List Int).length - 1)
                then 9
                else ((oracleArrays [1, 2, 3, 4] []).getD (0 : Int).toNat []).getD j 0)) :=
  ⟨by decide,
   C10_update_clamps [1, 2, 3, 4] [] t0 [] (by decide) (by decide) (by decide)
     0 (-5) 9 (by decide) (by decide) (by decide)⟩

end PSeg
